import Mathlib

/-!
Verification development for the magic-class undo / macro-recording subsystem.

Source of the definitions:
* `src/magicclass/undo.py` is embedded directly (`UndoFunction`,
  `SetterUndoFuncion`, `ImplementsUndo.call`, `merge_with`).
* The invocation interceptor and the undo/redo stack pair (the `ui.macro`
  object with its `_stack_undo` / `_stack_redo` attributes) live in a module
  of this repository that is not present under `src/`; those parts are
  modelled from the specification (sections 3, 4.1, 4.2, 4.3) and from the
  behaviour pinned down by `src/tests/test_undo.py`.
-/

namespace MagicClass

/-- Python exceptions that the embedded code can raise. -/
inductive PyErr where
  | notImplementedError
  | emptyStackError
  | typeError
  | exc : Nat → PyErr
deriving DecidableEq, Repr

/-- A dynamically-typed Python value, as needed for the `undo.py` embedding:
integers, strings and tuples (tuples are what `*args` packing produces). -/
inductive PyVal where
  | intV : Int → PyVal
  | strV : String → PyVal
  | tupleV : List PyVal → PyVal

/-- Python `dict.copy()` followed by `dict.update(u)` on an association list:
existing keys keep their position but take the new value, genuinely new keys
are appended in order. -/
def dictUpdate (d u : List (String × PyVal)) : List (String × PyVal) :=
  (d.map fun kv =>
    match u.find? (fun kv2 => kv2.1 == kv.1) with
    | some kv2 => (kv.1, kv2.2)
    | none => kv)
  ++ u.filter (fun kv2 => ¬ d.any (fun kv => kv.1 == kv2.1))

/-- Embedding of `UndoFunction` from `src/magicclass/undo.py`: a stored
callable `_func` together with the stored positional tuple `_args` and the
stored keyword dictionary `_kwargs`.  The callable takes the positional
arguments as a list and the keyword arguments as an association list, and can
raise (e.g. a `TypeError` on an arity mismatch). -/
structure UndoFunction where
  func : List PyVal → List (String × PyVal) → Except PyErr PyVal
  args : List PyVal
  kwargs : List (String × PyVal)

/-- `UndoFunction.call` from `src/magicclass/undo.py` line 23:
`return self._func(*self._args, **self._kwargs)`. -/
def UndoFunction.call (u : UndoFunction) : Except PyErr PyVal :=
  u.func u.args u.kwargs

/-- `UndoFunction.with_args` from `src/magicclass/undo.py` lines 26-29.
The source reads `return UndoFunction(self._func, self._args + args, **_kwargs)`:
the concatenated tuple `self._args + args` is passed as ONE positional
argument (it is not star-unpacked), so the constructor's `*args` packs it into
the singleton tuple `(self._args + args,)`.  The embedding reproduces that
faithfully. -/
def UndoFunction.with_args (u : UndoFunction) (args : List PyVal)
    (kwargs : List (String × PyVal)) : UndoFunction :=
  { func := u.func
    args := [PyVal.tupleV (u.args ++ args)]
    kwargs := dictUpdate u.kwargs kwargs }

/-- `ImplementsUndo.call` from `src/magicclass/undo.py` lines 9-11: the base
class method body is `raise NotImplementedError`. -/
def ImplementsUndo.call : Except PyErr Unit :=
  Except.error PyErr.notImplementedError

/-- Embedding of `SetterUndoFuncion` from `src/magicclass/undo.py` lines
32-39 (the class name's spelling is the source's): the `(setter, value,
old_value)` triple.  `S` stands for the type of the stored setter callable. -/
structure SetterUndoFuncion (S V : Type) where
  setter : S
  value : V
  old_value : V

/-- `SetterUndoFuncion.merge_with` from `src/magicclass/undo.py` lines 38-39:
`return SetterUndoFuncion(self._setter, new_value, self._old_value)`. -/
def SetterUndoFuncion.merge_with (s : SetterUndoFuncion S V) (new_value : V) :
    SetterUndoFuncion S V :=
  ⟨s.setter, new_value, s.old_value⟩

/-- `SetterUndoFuncion` defines no `call` of its own, so the method resolves
to the inherited `ImplementsUndo.call` (which raises `NotImplementedError`). -/
def SetterUndoFuncion.call (_s : SetterUndoFuncion S V) : Except PyErr Unit :=
  ImplementsUndo.call

mutual

/-- Modelled from the spec: a tracked operation as seen by the Invocation
Interceptor (section 4.1) — the interceptor module itself is not under
`src/`.  `run` is the operation body: from the object state it either raises
or returns the new state together with the optional compensating action the
body chose to return (section 6, tracked-callable protocol).  The `String`
component is the textual call expression the Macro Log renders for this
operation (e.g. `ui.f(x=2)`). -/
inductive Operation (σ V : Type) : Type where
  | mk : (σ → Except PyErr (σ × Option (Compensator σ V))) → String → Operation σ V

/-- Modelled from the spec: a CompensatingAction (section 3), polymorphic over
the two variants.  `fn` is a FunctionAction: a zero-argument closure run for
its effect on the state (it can raise).  `call` is a FunctionAction whose body
invokes another tracked operation (the nested-undo shape of
`test_undoable_in_undo`); during undo the engine runs it with recording
blocked, so only the state effect of the nested body happens.  `setterAct` is
a SetterAction `(setter, new_value, old_value)`: the `Nat` is the identity of
the setter (used to detect 'same field' for coalescing), the function is the
setter itself, then `new_value` and `old_value`. -/
inductive Compensator (σ V : Type) : Type where
  | fn : (σ → Except PyErr σ) → Compensator σ V
  | call : Operation σ V → Compensator σ V
  | setterAct : Nat → (V → σ → σ) → V → V → Compensator σ V

end

/-- The body of an `Operation`. -/
def Operation.run : Operation σ V → σ → Except PyErr (σ × Option (Compensator σ V))
  | .mk f _ => f

/-- The rendered call expression of an `Operation`. -/
def Operation.expr : Operation σ V → String
  | .mk _ e => e

/-- Modelled from the spec: executing a CompensatingAction during `undo()`
(section 4.2).  A `fn` closure is run directly.  A `call` runs the nested
operation's body with recording blocked: its state effect happens, its own
compensator is discarded, and no record is committed anywhere.  A
`setterAct` invokes the setter with the stored `old_value`, restoring the
pre-edit value. -/
def runComp : Compensator σ V → σ → Except PyErr σ
  | .fn f, s => f s
  | .call op, s =>
    match op.run s with
    | .error e => .error e
    | .ok (s2, _) => .ok s2
  | .setterAct _ set _ old, s => .ok (set old s)

/-- Modelled from the spec (section 4.1, special merge rule): when the
immediately preceding `done` entry's compensator `prev` is a SetterAction and
the newly produced compensator `next` is a SetterAction on the same setter,
the two coalesce via `merge_with`: the result keeps `prev`'s setter and
`old_value` and takes `next`'s `new_value`.  Any other combination does not
coalesce. -/
def mergeSetter : Compensator σ V → Compensator σ V → Option (Compensator σ V)
  | .setterAct i set _ old, .setterAct j _ v _ =>
    if i = j then some (.setterAct i set v old) else none
  | _, _ => none

/-- Modelled from the spec: one OperationRecord as stored on the undo stacks
(section 3) — the original operation (needed because `redo()` replays it) and
its compensating action.  Only records with a compensator reach the stacks,
so the compensator is not optional here. -/
structure Record (σ V : Type) where
  op : Operation σ V
  comp : Compensator σ V

/-- Modelled from the spec: the whole engine state (sections 3, 4.2, 4.3) —
the tracked object's state `value`, the Macro Log split at the cursor into the
active prefix `log` (most recent entry first) and the rolled-back suffix
`rolled`, and the undo stack pair `done` / `undone` (most recent first). -/
structure EngineState (σ V : Type) where
  value : σ
  log : List String
  rolled : List String
  done : List (Record σ V)
  undone : List (Record σ V)

/-- Modelled from the spec: the Invocation Interceptor (section 4.1), the
commit step of a user-triggered call.  If the body raises, the exception is
returned and the whole state is untouched (all-or-nothing).  If the body
returns no compensating action, the record is appended to the Macro Log (the
rolled-back suffix is truncated first) and both undo stacks are cleared
(section 4.3 clearing policy, pinned by `test_clear_undo_stack`).  If it
returns one, the record is appended to the log and pushed onto `done`, and
`undone` is cleared (branch abandon) — unless the special merge rule applies:
a SetterAction on the same setter as the previous `done` entry's SetterAction
coalesces via merge into a single entry (and the log entry is likewise
replaced), per section 4.1 and `test_autocall_method`. -/
def invoke (op : Operation σ V) (st : EngineState σ V) :
    EngineState σ V × Option PyErr :=
  match op.run st.value with
  | .error e => (st, some e)
  | .ok (v2, none) =>
    ({ value := v2, log := op.expr :: st.log, rolled := [],
       done := [], undone := [] }, none)
  | .ok (v2, some c) =>
    match st.done with
    | [] =>
      ({ value := v2, log := op.expr :: st.log, rolled := [],
         done := [⟨op, c⟩], undone := [] }, none)
    | r :: rest =>
      match mergeSetter r.comp c with
      | some m =>
        ({ value := v2, log := op.expr :: st.log.tail, rolled := [],
           done := ⟨op, m⟩ :: rest, undone := [] }, none)
      | none =>
        ({ value := v2, log := op.expr :: st.log, rolled := [],
           done := ⟨op, c⟩ :: r :: rest, undone := [] }, none)

/-- Modelled from the spec: `undo()` (section 4.2), with the empty-stack
policy the repository actually chose: `src/tests/test_undo.py` (lines
203-205 and 99-101) calls `undo()` on an empty `done` stack and expects no
exception and no state change, which is the 'no-ops per chosen policy'
alternative of section 8.  Otherwise the top record of `done` is popped, its
compensator is run (with recording blocked), the record moves to `undone`,
and the Macro Log cursor moves one step left (the head of the active prefix
moves to the rolled-back suffix).  If the compensator raises, the exception
is returned and nothing moves (transactional). -/
def undo (st : EngineState σ V) : EngineState σ V × Option PyErr :=
  match st.done with
  | [] => (st, none)
  | r :: rest =>
    match runComp r.comp st.value with
    | .error e => (st, some e)
    | .ok v2 =>
      match st.log with
      | [] =>
        ({ value := v2, log := [], rolled := st.rolled,
           done := rest, undone := r :: st.undone }, none)
      | l :: ls =>
        ({ value := v2, log := ls, rolled := l :: st.rolled,
           done := rest, undone := r :: st.undone }, none)

/-- Modelled from the spec: `redo()` (section 4.2), with the empty-stack
policy pinned by `src/tests/test_undo.py` lines 210-211 (an extra `redo()`
is a no-op).  Otherwise the top record of `undone` is popped and its ORIGINAL
operation is re-invoked: the replay produces a fresh record (the compensator
is recomputed by the body, not reused) appended at the cursor and pushed onto
`done`.  The replay does not clear the rest of `undone` (otherwise section
8's N-undos-then-N-redos property could not hold).  If the replayed body
raises, the exception is returned with the record still popped; if the
replayed body returns no compensator, the non-undoable clearing policy
applies. -/
def redo (st : EngineState σ V) : EngineState σ V × Option PyErr :=
  match st.undone with
  | [] => (st, none)
  | r :: rest =>
    match r.op.run st.value with
    | .error e => ({ st with undone := rest }, some e)
    | .ok (v2, some c) =>
      ({ value := v2, log := r.op.expr :: st.log, rolled := [],
         done := ⟨r.op, c⟩ :: st.done, undone := rest }, none)
    | .ok (v2, none) =>
      ({ value := v2, log := r.op.expr :: st.log, rolled := [],
         done := [], undone := [] }, none)

/-- Run a sequence of tracked operations through the interceptor, left to
right (errors leave the state untouched, per `invoke`). -/
def applyOps (ops : List (Operation σ V)) (st : EngineState σ V) :
    EngineState σ V :=
  ops.foldl (fun s op => (invoke op s).1) st

/-- `n` successive `undo()` calls. -/
def undoN (n : Nat) (st : EngineState σ V) : EngineState σ V :=
  (fun s => (undo s).1)^[n] st

/-- `n` successive `redo()` calls. -/
def redoN (n : Nat) (st : EngineState σ V) : EngineState σ V :=
  (fun s => (redo s).1)^[n] st

/-- The state produced by an operation body (the input state if it raises). -/
def runVal (op : Operation σ V) (s : σ) : σ :=
  match op.run s with
  | .ok (v, _) => v
  | .error _ => s

/-- The object state after a sequence of operation bodies. -/
def foldVal (ops : List (Operation σ V)) (s : σ) : σ :=
  ops.foldl (fun t op => runVal op t) s

/-- An undoable operation that honours the tracked-callable protocol the way
`test_undo_func`'s `f` does: at every state the body succeeds and returns a
FunctionAction closure that restores the state the body was invoked at
(section 3: a compensator 'reverses its effect'). -/
def GoodOp (op : Operation σ V) : Prop :=
  ∀ s, ∃ v2 f, op.run s = .ok (v2, some (Compensator.fn f)) ∧ f v2 = .ok s

/-- Modelled from the spec: a field edit (an auto-call setter operation,
section 4.1 / `test_autocall_method`): the body sets the field to `v` and
returns a SetterAction compensator capturing the pre-edit value `get s` as
`old_value`. -/
def setterOp (i : Nat) (set : V → σ → σ) (get : σ → V) (v : V) (e : String) :
    Operation σ V :=
  .mk (fun s => .ok (set v s, some (.setterAct i set v (get s)))) e

section Helpers

/-- A FunctionAction never coalesces with anything. -/
theorem mergeSetter_fn_right (p : Compensator σ V) (f : σ → Except PyErr σ) :
    mergeSetter p (.fn f) = none := by
  cases p <;> rfl

/-- Interceptor step for an operation that returns a FunctionAction: the
record is pushed, the log grows by its expression, `undone` is cleared. -/
theorem invoke_fn (op : Operation σ V) (st : EngineState σ V) (v2 : σ)
    (f : σ → Except PyErr σ) (h : op.run st.value = .ok (v2, some (.fn f))) :
    (invoke op st).1 =
      { value := v2, log := op.expr :: st.log, rolled := [],
        done := ⟨op, .fn f⟩ :: st.done, undone := [] } := by
  cases hd : st.done with
  | nil => simp [invoke, h, hd]
  | cons r rest => simp [invoke, h, hd, mergeSetter_fn_right]

/-- Undo step at a fully known state. -/
theorem undo_cons (st : EngineState σ V) (r : Record σ V)
    (rest : List (Record σ V)) (v2 : σ) (l : String) (ls : List String)
    (hd : st.done = r :: rest) (h : runComp r.comp st.value = .ok v2)
    (hl : st.log = l :: ls) :
    (undo st).1 =
      { value := v2, log := ls, rolled := l :: st.rolled,
        done := rest, undone := r :: st.undone } := by
  simp [undo, hd, h, hl]

/-- Core induction for C1: running a sequence of well-behaved undoable
operations and then as many `undo()` calls restores the object value, the
done stack and the active log to what they were before the sequence. -/
theorem undoN_applyOps (ops : List (Operation σ V))
    (h : ∀ op ∈ ops, GoodOp op) (st : EngineState σ V) :
    (undoN ops.length (applyOps ops st)).value = st.value ∧
      (undoN ops.length (applyOps ops st)).done = st.done ∧
      (undoN ops.length (applyOps ops st)).log = st.log := by
  induction ops generalizing st with
  | nil => exact ⟨rfl, rfl, rfl⟩
  | cons op ops ih =>
    obtain ⟨v2, f, hrun, hrev⟩ := h op (List.mem_cons_self op ops) st.value
    have hst1 : (invoke op st).1 =
        { value := v2, log := op.expr :: st.log, rolled := [],
          done := ⟨op, .fn f⟩ :: st.done, undone := [] } :=
      invoke_fn op st v2 f hrun
    have happ : applyOps (op :: ops) st = applyOps ops (invoke op st).1 := rfl
    have hiter :
        undoN (op :: ops).length (applyOps ops (invoke op st).1) =
          (undo (undoN ops.length (applyOps ops (invoke op st).1))).1 := by
      show (fun s => (undo s).1)^[ops.length + 1] _ = _
      rw [Function.iterate_succ_apply']
      rfl
    have hv2 : (invoke op st).1.value = v2 := by rw [hst1]
    have hd2 : (invoke op st).1.done = ⟨op, .fn f⟩ :: st.done := by rw [hst1]
    have hl2 : (invoke op st).1.log = op.expr :: st.log := by rw [hst1]
    obtain ⟨ihv, ihd, ihl⟩ :=
      ih (fun o ho => h o (List.mem_cons_of_mem op ho)) (invoke op st).1
    have hYv : (undoN ops.length (applyOps ops (invoke op st).1)).value = v2 :=
      ihv.trans hv2
    have hYd : (undoN ops.length (applyOps ops (invoke op st).1)).done =
        ⟨op, .fn f⟩ :: st.done := ihd.trans hd2
    have hYl : (undoN ops.length (applyOps ops (invoke op st).1)).log =
        op.expr :: st.log := ihl.trans hl2
    have hundo :
        (undo (undoN ops.length (applyOps ops (invoke op st).1))).1 =
          { value := st.value, log := st.log,
            rolled := op.expr ::
              (undoN ops.length (applyOps ops (invoke op st).1)).rolled,
            done := st.done,
            undone := ⟨op, .fn f⟩ ::
              (undoN ops.length (applyOps ops (invoke op st).1)).undone } := by
      apply undo_cons _ _ _ _ _ _ hYd _ hYl
      rw [show runComp (Compensator.fn f)
            (undoN ops.length (applyOps ops (invoke op st).1)).value =
          f (undoN ops.length (applyOps ops (invoke op st).1)).value from rfl,
        hYv]
      exact hrev
    rw [happ, hiter, hundo]
    exact ⟨rfl, rfl, rfl⟩

/-- Variant of `undoN_applyOps` that also tracks the `undone` stack: if the
pre-sequence `undone` stack is empty, after the N operations and N undos the
`undone` stack holds exactly one record per operation (first operation on
top), each carrying its original operation. -/
theorem undoN_applyOps_full (ops : List (Operation σ V))
    (h : ∀ op ∈ ops, GoodOp op) (st : EngineState σ V)
    (hu : st.undone = []) :
    ∃ recs : List (Record σ V), recs.map Record.op = ops ∧
      (undoN ops.length (applyOps ops st)).value = st.value ∧
      (undoN ops.length (applyOps ops st)).done = st.done ∧
      (undoN ops.length (applyOps ops st)).log = st.log ∧
      (undoN ops.length (applyOps ops st)).undone = recs := by
  induction ops generalizing st with
  | nil => exact ⟨[], rfl, rfl, rfl, rfl, hu⟩
  | cons op ops ih =>
    obtain ⟨v2, f, hrun, hrev⟩ := h op (List.mem_cons_self op ops) st.value
    have hst1 : (invoke op st).1 =
        { value := v2, log := op.expr :: st.log, rolled := [],
          done := ⟨op, .fn f⟩ :: st.done, undone := [] } :=
      invoke_fn op st v2 f hrun
    have happ : applyOps (op :: ops) st = applyOps ops (invoke op st).1 := rfl
    have hiter :
        undoN (op :: ops).length (applyOps ops (invoke op st).1) =
          (undo (undoN ops.length (applyOps ops (invoke op st).1))).1 := by
      show (fun s => (undo s).1)^[ops.length + 1] _ = _
      rw [Function.iterate_succ_apply']
      rfl
    have hv2 : (invoke op st).1.value = v2 := by rw [hst1]
    have hd2 : (invoke op st).1.done = ⟨op, .fn f⟩ :: st.done := by rw [hst1]
    have hl2 : (invoke op st).1.log = op.expr :: st.log := by rw [hst1]
    have hu2 : (invoke op st).1.undone = [] := by rw [hst1]
    obtain ⟨recs, hmap, ihv, ihd, ihl, ihu⟩ :=
      ih (fun o ho => h o (List.mem_cons_of_mem op ho)) (invoke op st).1 hu2
    have hYv : (undoN ops.length (applyOps ops (invoke op st).1)).value = v2 :=
      ihv.trans hv2
    have hYd : (undoN ops.length (applyOps ops (invoke op st).1)).done =
        ⟨op, .fn f⟩ :: st.done := ihd.trans hd2
    have hYl : (undoN ops.length (applyOps ops (invoke op st).1)).log =
        op.expr :: st.log := ihl.trans hl2
    have hundo :
        (undo (undoN ops.length (applyOps ops (invoke op st).1))).1 =
          { value := st.value, log := st.log,
            rolled := op.expr ::
              (undoN ops.length (applyOps ops (invoke op st).1)).rolled,
            done := st.done,
            undone := ⟨op, .fn f⟩ ::
              (undoN ops.length (applyOps ops (invoke op st).1)).undone } := by
      apply undo_cons _ _ _ _ _ _ hYd _ hYl
      rw [show runComp (Compensator.fn f)
            (undoN ops.length (applyOps ops (invoke op st).1)).value =
          f (undoN ops.length (applyOps ops (invoke op st).1)).value from rfl,
        hYv]
      exact hrev
    refine ⟨⟨op, .fn f⟩ :: recs, by rw [List.map_cons, hmap], ?_⟩
    rw [happ, hiter, hundo]
    exact ⟨rfl, rfl, rfl, by rw [ihu]⟩

/-- The object value after a sequence of well-behaved operations is the fold
of their bodies, and the active log grows by one entry per operation. -/
theorem applyOps_good (ops : List (Operation σ V))
    (h : ∀ op ∈ ops, GoodOp op) (st : EngineState σ V) :
    (applyOps ops st).value = foldVal ops st.value ∧
      (applyOps ops st).log.length = ops.length + st.log.length := by
  induction ops generalizing st with
  | nil => exact ⟨rfl, (Nat.zero_add _).symm⟩
  | cons op ops ih =>
    obtain ⟨v2, f, hrun, hrev⟩ := h op (List.mem_cons_self op ops) st.value
    have hst1 : (invoke op st).1 =
        { value := v2, log := op.expr :: st.log, rolled := [],
          done := ⟨op, .fn f⟩ :: st.done, undone := [] } :=
      invoke_fn op st v2 f hrun
    obtain ⟨ihv, ihl⟩ :=
      ih (fun o ho => h o (List.mem_cons_of_mem op ho)) (invoke op st).1
    have hfold : foldVal (op :: ops) st.value = foldVal ops v2 := by
      show foldVal ops (runVal op st.value) = foldVal ops v2
      rw [show runVal op st.value = v2 by simp [runVal, hrun]]
    constructor
    · show (applyOps ops (invoke op st).1).value = foldVal (op :: ops) st.value
      rw [ihv, hfold, show (invoke op st).1.value = v2 by rw [hst1]]
    · show (applyOps ops (invoke op st).1).log.length =
        (op :: ops).length + st.log.length
      rw [ihl, show (invoke op st).1.log = op.expr :: st.log by rw [hst1]]
      simp only [List.length_cons]
      omega

/-- Core induction for C2's redo phase: `redo()` applied once per record on
the `undone` stack replays the original operations in order — the value is
the fold of the original bodies from the current value, the log grows by one
per replay, and the replayed records are consumed from `undone`. -/
theorem redoN_replay (recs : List (Record σ V))
    (h : ∀ r ∈ recs, GoodOp r.op) (st : EngineState σ V)
    (rest : List (Record σ V)) (hu : st.undone = recs ++ rest) :
    (redoN recs.length st).value = foldVal (recs.map Record.op) st.value ∧
      (redoN recs.length st).log.length = recs.length + st.log.length ∧
      (redoN recs.length st).undone = rest := by
  induction recs generalizing st with
  | nil =>
    refine ⟨rfl, (Nat.zero_add _).symm, ?_⟩
    show st.undone = rest
    rw [hu, List.nil_append]
  | cons r recs ih =>
    obtain ⟨v2, f, hrun, hrev⟩ := h r (List.mem_cons_self r recs) st.value
    have hredo : (redo st).1 =
        { value := v2, log := r.op.expr :: st.log, rolled := [],
          done := ⟨r.op, .fn f⟩ :: st.done, undone := recs ++ rest } := by
      simp [redo, hu, hrun]
    have hiter : redoN (r :: recs).length st = redoN recs.length (redo st).1 := by
      show (fun s => (redo s).1)^[recs.length + 1] st = _
      rw [Function.iterate_succ_apply]
      rfl
    obtain ⟨ihv, ihl, ihu⟩ :=
      ih (fun x hx => h x (List.mem_cons_of_mem r hx)) (redo st).1
        (by rw [hredo])
    have hfold : foldVal ((r :: recs).map Record.op) st.value =
        foldVal (recs.map Record.op) v2 := by
      show foldVal (recs.map Record.op) (runVal r.op st.value) = _
      rw [show runVal r.op st.value = v2 by simp [runVal, hrun]]
    refine ⟨?_, ?_, ?_⟩
    · rw [hiter, ihv, hfold, show (redo st).1.value = v2 by rw [hredo]]
    · rw [hiter, ihl, show (redo st).1.log = r.op.expr :: st.log by rw [hredo]]
      simp only [List.length_cons]
      omega
    · rw [hiter, ihu]

end Helpers

section ClaimTheorems

/-- C4: for every invocation of a tracked callable whose body raises an
exception, the exception propagates unchanged and no record is committed:
the macro log, the done stack and the undone stack are all unchanged (the
interceptor returns the input state as is). -/
theorem failed_invoke_commits_nothing (op : Operation σ V)
    (st : EngineState σ V) (e : PyErr) (h : op.run st.value = .error e) :
    invoke op st = (st, some e) := by
  simp only [invoke, h]

/-- A tracked operation whose body always raises, for the C4 witness. -/
def failOp : Operation Int Int :=
  .mk (fun _ => .error (.exc 7)) "ui.boom()"

/-- An engine state with one entry on each stack and a nonempty log. -/
def stW4 : EngineState Int Int :=
  { value := 5
    log := ["ui.f(x=5)", "init"]
    rolled := ["ui.g()"]
    done := [⟨failOp, .fn (fun t => .ok t)⟩]
    undone := [⟨failOp, .fn (fun t => .ok t)⟩] }

/-- Witness for C4 at a concrete state: the failing call returns the state
unchanged together with the exception. -/
theorem failed_invoke_commits_nothing_witness :
    failOp.run stW4.value = .error (.exc 7) ∧
      invoke failOp stW4 = (stW4, some (.exc 7)) :=
  ⟨rfl, failed_invoke_commits_nothing failOp stW4 (.exc 7) rfl⟩

/-- C5: a `redo()` call on a non-empty undone stack re-invokes the original
operation (the new value is the one the body produces now), pushes a fresh
record built from the recomputed compensator (not the old record), and the
rendering of the last active macro-log entry is the original call
expression. -/
theorem redo_replays_fresh_record (st : EngineState σ V)
    (r : Record σ V) (rest : List (Record σ V)) (v2 : σ)
    (c : Compensator σ V) (hu : st.undone = r :: rest)
    (h : r.op.run st.value = .ok (v2, some c)) :
    redo st =
      ({ value := v2, log := r.op.expr :: st.log, rolled := [],
         done := ⟨r.op, c⟩ :: st.done, undone := rest }, none) := by
  simp only [redo, hu, h]

/-- The operation `ui.f(x=2)` of `test_undo_func`: sets the tracked `_x`
field and returns a closure restoring the previous value. -/
def fOp2 : Operation Int Int :=
  .mk (fun s => .ok (2, some (.fn (fun _ => .ok s)))) "ui.f(x=2)"

/-- A state as after `f(1); f(2); undo()` in `test_undo_func`: the `f(x=2)`
record sits on the undone stack. -/
def stW5 : EngineState Int Int :=
  { value := 1
    log := ["ui.f(x=1)", "init"]
    rolled := ["ui.f(x=2)"]
    done := [⟨fOp2, .fn (fun _ => .ok 0)⟩]
    undone := [⟨fOp2, .fn (fun _ => .ok 1)⟩] }

/-- Witness for C5: redoing `f(x=2)` replays the original call, the state
becomes 2, a fresh record (compensator recomputed at the current value 1)
is pushed, and the last active log entry renders as `ui.f(x=2)`. -/
theorem redo_replays_fresh_record_witness :
    stW5.undone = ⟨fOp2, .fn (fun _ => .ok 1)⟩ :: [] ∧
      fOp2.run stW5.value = .ok (2, some (.fn (fun _ => .ok (1 : Int)))) ∧
      redo stW5 =
        ({ value := 2, log := ["ui.f(x=2)", "ui.f(x=1)", "init"], rolled := [],
           done := ⟨fOp2, .fn (fun _ => .ok 1)⟩ :: stW5.done, undone := [] },
         none) :=
  ⟨rfl, rfl,
    redo_replays_fresh_record stW5 ⟨fOp2, .fn (fun _ => .ok 1)⟩ [] 2
      (.fn (fun _ => .ok 1)) rfl rfl⟩

/-- C6: after an operation that returns no compensator runs, both stacks are
empty, whatever they contained before. -/
theorem non_undoable_clears_stacks (op : Operation σ V)
    (st : EngineState σ V) (v2 : σ) (h : op.run st.value = .ok (v2, none)) :
    (invoke op st).1.done = [] ∧ (invoke op st).1.undone = [] := by
  simp [invoke, h]

/-- The `not_undoable` method of `test_clear_undo_stack`: a body that
changes nothing and returns no compensator. -/
def notUndoableOp : Operation Int Int :=
  .mk (fun s => .ok (s, none)) "ui.not_undoable()"

/-- Witness for C6 at a state whose stacks are both non-empty (as after
`undoable(); undoable(); undo()` in `test_clear_undo_stack`). -/
theorem non_undoable_clears_stacks_witness :
    notUndoableOp.run stW4.value = .ok (5, none) ∧
      (invoke notUndoableOp stW4).1.done = [] ∧
      (invoke notUndoableOp stW4).1.undone = [] :=
  ⟨rfl, non_undoable_clears_stacks notUndoableOp stW4 5 rfl⟩

/-- A state with an empty done stack (as after undoing everything in
`test_undoable_in_undo`, line 203). -/
def stC7 : EngineState Int Int :=
  { value := 3, log := ["init"], rolled := ["ui.f(x=3)"], done := [],
    undone := [⟨fOp2, .fn (fun _ => .ok 0)⟩] }

/-- Counterexample to C7 as stated: calling `undo()` on an empty done stack
does NOT raise `EmptyStackError` — it returns no error at all (the state is
indeed unchanged).  This is the behaviour `src/tests/test_undo.py` lines
203-205 requires: the test calls `undo()` on an empty stack outside any
exception guard and continues. -/
theorem undo_empty_raises_counterexample :
    undo stC7 = (stC7, none) ∧
      (undo stC7).2 ≠ some PyErr.emptyStackError :=
  ⟨rfl, fun h => Option.noConfusion h⟩

/-- C7 amended: calling `undo()` when the done stack is empty is a no-op —
no exception is raised and the state (object value, macro log, stacks) is
returned unchanged. -/
theorem undo_empty_is_noop (st : EngineState σ V) (h : st.done = []) :
    undo st = (st, none) := by
  simp only [undo, h]

/-- Witness for the amended C7 at a concrete empty-done state. -/
theorem undo_empty_is_noop_witness :
    stC7.done = [] ∧ undo stC7 = (stC7, none) :=
  ⟨rfl, undo_empty_is_noop stC7 rfl⟩

/-- C8: undoing a record whose compensator invokes another tracked operation
(nested undo) runs the nested body for its state effect only: the result of
the `undo()` is exactly one outer step — the top record moves from `done` to
`undone`, the log cursor moves one step left — and the nested invocation is
pushed on neither stack and appends nothing to the log. -/
theorem nested_call_not_new_step (st : EngineState σ V)
    (r : Record σ V) (rest : List (Record σ V)) (nop : Operation σ V)
    (v2 : σ) (c2 : Option (Compensator σ V)) (hd : st.done = r :: rest)
    (hc : r.comp = .call nop) (h : nop.run st.value = .ok (v2, c2)) :
    (undo st).2 = none ∧ (undo st).1.value = v2 ∧
      (undo st).1.done = rest ∧ (undo st).1.undone = r :: st.undone ∧
      (undo st).1.log = st.log.tail := by
  have hrc : runComp r.comp st.value = .ok v2 := by
    simp only [hc, runComp, h]
  cases hlog : st.log with
  | nil => simp [undo, hd, hrc, hlog]
  | cons l ls => simp [undo, hd, hrc, hlog]

/-- The `pop_value` body of `test_undoable_in_undo` (its own compensator is
irrelevant to the C8 witness). -/
def popOp : Operation (List Int) Int :=
  .mk (fun s => .ok (s.dropLast, some (.fn (fun t => .ok t)))) "ui.pop_value()"

/-- The `add_value` body of `test_undoable_in_undo`: appends `v` and returns
a compensator that internally calls the tracked `pop_value`. -/
def addOp (v : Int) : Operation (List Int) Int :=
  .mk (fun s => .ok (s ++ [v], some (.call popOp))) "ui.add_value()"

/-- The state after `add_value(1); add_value(2)` in `test_undoable_in_undo`. -/
def stW8 : EngineState (List Int) Int :=
  { value := [1, 2]
    log := ["ui.add_value()", "ui.add_value()", "init"]
    rolled := []
    done := [⟨addOp 2, .call popOp⟩, ⟨addOp 1, .call popOp⟩]
    undone := [] }

/-- Witness for C8: undoing `add_value(2)` runs `pop_value` internally — the
value becomes `[1]` — yet `done` just loses its top record, `undone` just
gains it, and the log shrinks by exactly one entry. -/
theorem nested_call_not_new_step_witness :
    stW8.done = ⟨addOp 2, .call popOp⟩ :: [⟨addOp 1, .call popOp⟩] ∧
      popOp.run stW8.value = .ok ([1], some (.fn (fun t => .ok t))) ∧
      (undo stW8).2 = none ∧ (undo stW8).1.value = [1] ∧
      (undo stW8).1.done = [⟨addOp 1, .call popOp⟩] ∧
      (undo stW8).1.undone = ⟨addOp 2, .call popOp⟩ :: [] ∧
      (undo stW8).1.log = ["ui.add_value()", "init"] :=
  ⟨rfl, rfl,
    nested_call_not_new_step stW8 ⟨addOp 2, .call popOp⟩
      [⟨addOp 1, .call popOp⟩] popOp [1] (some (.fn (fun t => .ok t)))
      rfl rfl rfl⟩

/-- C9: `SetterUndoFuncion` does not override `ImplementsUndo.call`, so for
every instance, invoking `call` raises `NotImplementedError`: a setter-style
compensating action cannot be executed through the common `ImplementsUndo`
interface. -/
theorem setter_undo_call_raises (S V : Type) (s : SetterUndoFuncion S V) :
    s.call = Except.error PyErr.notImplementedError :=
  rfl

/-- A two-argument Python function (raising `TypeError` unless it receives
exactly two ints positionally), for the C10 evaluation. -/
def addF : List PyVal → List (String × PyVal) → Except PyErr PyVal
  | [PyVal.intV a, PyVal.intV b], _ => .ok (PyVal.intV (a + b))
  | _, _ => .error PyErr.typeError

/-- `UndoFunction(addF, 1)`: stored positional arguments `(1,)`. -/
def u10 : UndoFunction :=
  { func := addF, args := [PyVal.intV 1], kwargs := [] }

/-- C10 evaluated at the failing input (code bug): `u10.with_args(2)` stores
the single positional argument `(1, 2)` — the concatenated tuple is not
unpacked — so calling the result applies `addF` to that one tuple and raises
`TypeError`, while `addF` applied to the positional arguments `1, 2` (what
the claim, and `call`'s own unpacking convention for `_args`, prescribe)
succeeds with 3. -/
theorem with_args_wraps_args_in_tuple :
    (u10.with_args [PyVal.intV 2] []).args =
        [PyVal.tupleV [PyVal.intV 1, PyVal.intV 2]] ∧
      (u10.with_args [PyVal.intV 2] []).call = .error PyErr.typeError ∧
      UndoFunction.call
          { func := addF, args := [PyVal.intV 1, PyVal.intV 2], kwargs := [] } =
        .ok (PyVal.intV 3) :=
  ⟨rfl, rfl, rfl⟩

/-- C1: for every sequence of undoable operations (each honouring the
tracked-callable protocol: the body succeeds and returns a compensator
reversing it) run on a tracked object whose pre-sequence done stack is
empty, following the sequence with as many `undo()` calls returns the
object's state exactly to its pre-sequence value and leaves the done stack
empty. -/
theorem undo_reverts_sequence (ops : List (Operation σ V))
    (h : ∀ op ∈ ops, GoodOp op) (st : EngineState σ V) (hd : st.done = []) :
    (undoN ops.length (applyOps ops st)).value = st.value ∧
      (undoN ops.length (applyOps ops st)).done = [] := by
  obtain ⟨hv, hdn, _⟩ := undoN_applyOps ops h st
  exact ⟨hv, by rw [hdn, hd]⟩

/-- The `f(x := value + 1)` style operation used for the C1/C2 witnesses:
increments the tracked value and returns a closure restoring it. -/
def incOp : Operation Int Int :=
  .mk (fun s => .ok (s + 1, some (.fn (fun t => .ok (t - 1))))) "ui.inc()"

/-- `incOp` honours the tracked-callable protocol. -/
theorem goodInc : GoodOp incOp := by
  intro s
  refine ⟨s + 1, fun t => .ok (t - 1), rfl, ?_⟩
  simp

/-- A freshly constructed tracked object: initial value 0, one log entry
for the construction, empty stacks. -/
def stInit : EngineState Int Int :=
  { value := 0, log := ["init"], rolled := [], done := [], undone := [] }

/-- Witness for C1 with two concrete undoable operations. -/
theorem undo_reverts_sequence_witness :
    (∀ op ∈ [incOp, incOp], GoodOp op) ∧ stInit.done = [] ∧
      (undoN 2 (applyOps [incOp, incOp] stInit)).value = stInit.value ∧
      (undoN 2 (applyOps [incOp, incOp] stInit)).done = [] := by
  have hg : ∀ op ∈ [incOp, incOp], GoodOp op := by
    intro op hop
    rcases List.mem_cons.1 hop with h1 | hop2
    · rw [h1]; exact goodInc
    · rcases List.mem_cons.1 hop2 with h1 | h2
      · rw [h1]; exact goodInc
      · exact absurd h2 (List.not_mem_nil op)
  exact ⟨hg, rfl, undo_reverts_sequence [incOp, incOp] hg stInit rfl⟩

/-- C2: for every sequence of undoable operations (as in C1) on a tracked
object with no pending redo history, running the sequence, then as many
`undo()` calls, then as many `redo()` calls brings the object's state and
the visible macro-log length back to exactly their values immediately after
the original sequence. -/
theorem redo_restores_sequence (ops : List (Operation σ V))
    (h : ∀ op ∈ ops, GoodOp op) (st : EngineState σ V)
    (hu : st.undone = []) :
    (redoN ops.length (undoN ops.length (applyOps ops st))).value =
        (applyOps ops st).value ∧
      (redoN ops.length (undoN ops.length (applyOps ops st))).log.length =
        (applyOps ops st).log.length := by
  obtain ⟨recs, hmap, hBv, _, hBl, hBu⟩ := undoN_applyOps_full ops h st hu
  have hlen : recs.length = ops.length := by
    rw [show ops = recs.map Record.op from hmap.symm, List.length_map]
  have hrg : ∀ r ∈ recs, GoodOp r.op := by
    intro r hr
    exact h r.op (hmap ▸ List.mem_map_of_mem Record.op hr)
  obtain ⟨hRv, hRl, _⟩ :=
    redoN_replay recs hrg (undoN ops.length (applyOps ops st)) []
      (by rw [hBu, List.append_nil])
  obtain ⟨hAv, hAl⟩ := applyOps_good ops h st
  constructor
  · rw [show redoN ops.length (undoN ops.length (applyOps ops st)) =
        redoN recs.length (undoN ops.length (applyOps ops st)) by rw [hlen],
      hRv, hmap, hBv, hAv]
  · rw [show redoN ops.length (undoN ops.length (applyOps ops st)) =
        redoN recs.length (undoN ops.length (applyOps ops st)) by rw [hlen],
      hRl, hBl, hAl, hlen]

/-- Witness for C2 with two concrete undoable operations. -/
theorem redo_restores_sequence_witness :
    (∀ op ∈ [incOp, incOp], GoodOp op) ∧ stInit.undone = [] ∧
      (redoN 2 (undoN 2 (applyOps [incOp, incOp] stInit))).value =
        (applyOps [incOp, incOp] stInit).value ∧
      (redoN 2 (undoN 2 (applyOps [incOp, incOp] stInit))).log.length =
        (applyOps [incOp, incOp] stInit).log.length := by
  have hg : ∀ op ∈ [incOp, incOp], GoodOp op := by
    intro op hop
    rcases List.mem_cons.1 hop with h1 | hop2
    · rw [h1]; exact goodInc
    · rcases List.mem_cons.1 hop2 with h1 | h2
      · rw [h1]; exact goodInc
      · exact absurd h2 (List.not_mem_nil op)
  exact ⟨hg, rfl, redo_restores_sequence [incOp, incOp] hg stInit rfl⟩

/-- C3: `merge_with` on a `SetterUndoFuncion` keeps the setter and the
`old_value` and replaces only `new_value`; consequently, in the interceptor,
two consecutive setter edits of the same field starting from an empty done
stack leave exactly one done entry, whose compensator is the SetterAction
carrying the pre-first-edit value as `old_value` — running it restores the
field to the value it had before the first of the two edits. -/
theorem setter_merge_coalesces :
    (∀ (S V : Type) (s : SetterUndoFuncion S V) (v : V),
        s.merge_with v = ⟨s.setter, v, s.old_value⟩) ∧
      (∀ (σ V : Type) (i : Nat) (set : V → σ → σ) (get : σ → V)
          (v1 v2 : V) (e1 e2 : String) (st : EngineState σ V),
          st.done = [] →
          (invoke (setterOp i set get v2 e2)
                (invoke (setterOp i set get v1 e1) st).1).1.done =
              [⟨setterOp i set get v2 e2,
                .setterAct i set v2 (get st.value)⟩] ∧
            (∀ t, runComp
                (Compensator.setterAct i set v2 (get st.value) : Compensator σ V)
                t = .ok (set (get st.value) t))) := by
  constructor
  · intro S V s v
    rfl
  · intro σ V i set get v1 v2 e1 e2 st hd
    refine ⟨?_, fun t => rfl⟩
    simp [invoke, setterOp, Operation.run, Operation.expr, mergeSetter, hd]

/-- Concrete field model for the C3 witness: the object state is the field
value itself. -/
def setF : Int → Int → Int := fun v _ => v

/-- Field read for the C3 witness. -/
def getF : Int → Int := fun s => s

/-- A concrete `SetterUndoFuncion` instance for the C3 witness. -/
def sW3 : SetterUndoFuncion Nat Int := ⟨3, 5, 7⟩

/-- Witness for C3: the concrete merge keeps setter 3 and old value 7, and
two consecutive edits of the same field (id 0) of `stInit` (initial field
value 0) to 1 then to 2 leave one done entry whose SetterAction holds
`old_value` 0; running that compensator sets the field back to 0. -/
theorem setter_merge_coalesces_witness :
    sW3.merge_with 9 = ⟨3, 9, 7⟩ ∧ stInit.done = [] ∧
      (invoke (setterOp 0 setF getF 2 "ui.f(x=2)")
            (invoke (setterOp 0 setF getF 1 "ui.f(x=1)") stInit).1).1.done =
          [⟨setterOp 0 setF getF 2 "ui.f(x=2)",
            .setterAct 0 setF 2 (getF stInit.value)⟩] ∧
      (∀ t, runComp
          (Compensator.setterAct 0 setF 2 (getF stInit.value) :
            Compensator Int Int) t = .ok (setF (getF stInit.value) t)) := by
  refine ⟨setter_merge_coalesces.1 Nat Int sW3 9, rfl, ?_⟩
  exact setter_merge_coalesces.2 Int Int 0 setF getF 1 2
    "ui.f(x=1)" "ui.f(x=2)" stInit rfl

end ClaimTheorems

end MagicClass
